import Mathlib

/-!
# Verification of `coca`'s fixed-capacity binary max-heap (`src/binary_heap.rs`)

A shallow embedding of the heap-order maintenance engine: the index
arithmetic (`parent`/`left`/`right`), `heapify` (sift-down), the sift-up loop
of `try_push`, `pop`, the `From<Vec>` build-heap, `into_sorted_vec`
(in-place heapsort), the sorted extraction iterators (`DrainSorted`,
`IntoIterSorted`, whose `next` is one `pop`), and the `PeekMut` guard
release.

The heap's backing vector is modelled as a `List α` together with a fixed
capacity; element reads and index swaps are modelled with `List.getD` and
`List.set`.  All operations of the Rust source only ever access in-bounds
indices (proved below for the sift-up loop, which is the one place the spec
calls out), so the `default`-padding of `getD` is never observable.
-/

set_option linter.unusedSectionVars false

namespace Coca

variable {α : Type} [LinearOrder α] [Inhabited α]

/-- `fn parent(i: usize) -> usize { (i + 1) / 2 - 1 }` (0-based, CLRS shifted). -/
def parent (i : Nat) : Nat := (i + 1) / 2 - 1

/-- `fn left(i: usize) -> usize { 2 * (i + 1) - 1 }`. -/
def left (i : Nat) : Nat := 2 * (i + 1) - 1

/-- `fn right(i: usize) -> usize { 2 * (i + 1) }`. -/
def right (i : Nat) : Nat := 2 * (i + 1)

/-- Read a slice element, `a[i]`; in-bounds at every use site in the source. -/
def get (a : List α) (i : Nat) : α := a.getD i default

/-- `<[T]>::swap(i, j)`: exchange the elements at indices `i` and `j`. -/
def swap (a : List α) (i j : Nat) : List α :=
  (a.set i (get a j)).set j (get a i)

/-- `inSubtree i j`: index `j` lies in the subtree rooted at index `i`
under the array encoding (`j` reachable from `i` by child steps). -/
def inSubtree (i : Nat) (j : Nat) : Bool :=
  if i = j then true
  else if i < j then inSubtree i (parent j)
  else false
termination_by j
decreasing_by
  simp only [parent]; omega

/-- The provisional candidate in `heapify`'s body:
`let mut largest = if l < a.len() && a[l] > a[i] { l } else { i };`. -/
def heapCand (a : List α) (i : Nat) : Nat :=
  if left i < a.length ∧ get a i < get a (left i) then left i else i

/-- The final swap target in `heapify`'s body:
`if r < a.len() && a[r] > a[largest] { largest = r; }`. -/
def heapTarget (a : List α) (i : Nat) : Nat :=
  if right i < a.length ∧ get a (heapCand a i) < get a (right i) then right i
  else heapCand a i

/-- `fn heapify<T: Ord>(a: &mut [T], i: usize)`: sift-down at index `i`. -/
def heapify (a : List α) (i : Nat) : List α :=
  if heapTarget a i = i then a
  else heapify (swap a i (heapTarget a i)) (heapTarget a i)
termination_by a.length - i
decreasing_by
  have hlen : (swap a i (heapTarget a i)).length = a.length := by simp [swap]
  rw [hlen]
  have hspec : heapTarget a i = i ∨
      (i < heapTarget a i ∧ heapTarget a i < a.length) := by
    by_cases h2 : right i < a.length ∧ get a (heapCand a i) < get a (right i)
    · rw [heapTarget, if_pos h2]
      exact Or.inr ⟨by simp only [right]; omega, h2.1⟩
    · rw [heapTarget, if_neg h2]
      by_cases h1 : left i < a.length ∧ get a i < get a (left i)
      · rw [heapCand, if_pos h1]
        exact Or.inr ⟨by simp only [left]; omega, h1.1⟩
      · rw [heapCand, if_neg h1]
        exact Or.inl rfl
  rcases hspec with he | ⟨hlt1, hlt2⟩
  · exact absurd he (by assumption)
  · omega

/-- The max-heap invariant: for every occupied index `i > 0`,
`element[parent(i)] >= element[i]`. -/
def IsHeap (a : List α) : Prop :=
  ∀ j, j < a.length → 0 < j → get a j ≤ get a (parent j)

instance (a : List α) : Decidable (IsHeap a) := by
  unfold IsHeap
  infer_instance

/-- `BinaryHeap<E, B, I>`: wraps a `Vec` whose backing store has fixed
capacity `cap`; `a` is the list of occupied elements. -/
structure BinaryHeap (α : Type) where
  cap : Nat
  a : List α

/-- Modelled from the spec: `Vec::try_push` (`crate::vec` is not in src/):
"append (fallible on full)" — fails, returning the rejected item, exactly
when the backing store is full, else appends at the end. -/
def vecTryPush (cap : Nat) (a : List α) (x : α) : Except α (List α) :=
  if a.length < cap then Except.ok (a ++ [x]) else Except.error x

/-- Modelled from the spec: `Vec::swap_remove(0)` (`crate::vec` is not in
src/): "remove-by-swap-with-last" — moves the last element into slot 0,
shrinks the length by one, and returns the old root. -/
def vecSwapRemoveFront (a : List α) : α × List α :=
  (get a 0, (swap a 0 (a.length - 1)).dropLast)

/-- The sift-up loop in `BinaryHeap::try_push`:
`while i > 0 && a[parent(i)] < a[i] { a.swap(i, parent(i)); i = parent(i); }`. -/
def siftUp (a : List α) (i : Nat) : List α :=
  if 0 < i ∧ get a (parent i) < get a i then
    siftUp (swap a i (parent i)) (parent i)
  else a
termination_by i
decreasing_by
  rename_i h
  have := h.1
  simp only [parent]
  omega

/-- `BinaryHeap::try_push`: append via the vector, then sift-up from the
new last index; on a full store the item comes back unchanged and the heap
is untouched. -/
def tryPush (h : BinaryHeap α) (x : α) : Except α Unit × BinaryHeap α :=
  match vecTryPush h.cap h.a x with
  | Except.error e => (Except.error e, h)
  | Except.ok a2 => (Except.ok (), ⟨h.cap, siftUp a2 (a2.length - 1)⟩)

/-- `BinaryHeap::push`: thin wrapper over `try_push`; the panic on a full
heap is modelled as `none`. -/
def push (h : BinaryHeap α) (x : α) : Option (BinaryHeap α) :=
  match tryPush h x with
  | (Except.ok _, h2) => some h2
  | (Except.error _, _) => none

/-- `BinaryHeap::peek`: `self.a.first()`. -/
def peek (h : BinaryHeap α) : Option α := h.a.head?

/-- `BinaryHeap::pop`: `None` if empty; else swap-remove the root and
sift-down from index 0. -/
def pop (h : BinaryHeap α) : Option (α × BinaryHeap α) :=
  if h.a.isEmpty then none
  else
    some ((vecSwapRemoveFront h.a).1,
      ⟨h.cap, heapify (vecSwapRemoveFront h.a).2 0⟩)

/-- Repeated `pop`, fuelled: one unit of fuel per `pop`, so the occupied
length is always enough (every successful `pop` shrinks it by one). -/
def popAllFuel : Nat → BinaryHeap α → List α
  | 0, _ => []
  | fuel + 1, h =>
    match pop h with
    | none => []
    | some (v, h2) => v :: popAllFuel fuel h2

/-- The full sequence a sorted extraction iterator yields: repeated `pop`
until empty (also the destruction sequence of its `Drop` impl, which runs
`self.for_each(drop)`). -/
def popAll (h : BinaryHeap α) : List α := popAllFuel h.a.length h

/-- The loop of `From<Vec> for BinaryHeap` and of `Extend::extend`:
`for i in (0..(a.len()/2)).rev() { heapify(a, i); }`, counted down from
the loop bound. -/
def buildHeapLoop (a : List α) : Nat → List α
  | 0 => a
  | k + 1 => buildHeapLoop (heapify a k) k

/-- `impl From<Vec<E, B, I>> for BinaryHeap<E, B, I>`: in-place build-heap
over the vector's contents. -/
def fromVec (cap : Nat) (a : List α) : BinaryHeap α :=
  ⟨cap, buildHeapLoop a (a.length / 2)⟩

/-- `Extend::extend`: the vector append is modelled from the spec ("append
all new elements to the backing store"); the rebuild loop over the whole
sequence is from the source. -/
def extendHeap (h : BinaryHeap α) (l : List α) : BinaryHeap α :=
  ⟨h.cap, buildHeapLoop (h.a ++ l) ((h.a ++ l).length / 2)⟩

/-- Writing `v` through the `PeekMut` guard (`DerefMut` to the root). -/
def peekMutWrite (h : BinaryHeap α) (v : α) : BinaryHeap α :=
  ⟨h.cap, h.a.set 0 v⟩

/-- `Drop for PeekMut`: `heapify(self.heap.a.as_mut_slice(), 0)`. -/
def peekMutDrop (h : BinaryHeap α) : BinaryHeap α :=
  ⟨h.cap, heapify h.a 0⟩

/-- The loop of `BinaryHeap::into_sorted_vec`:
`for i in (1..a.len()).rev() { a.swap(0, i); heapify(&mut a[..i], 0); }`;
the sift-down on the prefix slice `a[..i]` is modelled by splitting the
list at `i`. -/
def intoSortedLoop (a : List α) : Nat → List α
  | 0 => a
  | k + 1 =>
    intoSortedLoop
      (heapify ((swap a 0 (k + 1)).take (k + 1)) 0 ++
        (swap a 0 (k + 1)).drop (k + 1)) k

/-- `BinaryHeap::into_sorted_vec`: in-place heapsort into ascending order. -/
def intoSortedVec (h : BinaryHeap α) : List α :=
  intoSortedLoop h.a (h.a.length - 1)

/-- `struct DrainSorted` (mutably borrows the heap). -/
structure DrainSorted (α : Type) where
  heap : BinaryHeap α

/-- `Iterator::next for DrainSorted`: `self.heap.pop()`. -/
def DrainSorted.next (it : DrainSorted α) : Option (α × DrainSorted α) :=
  match pop it.heap with
  | none => none
  | some (v, h2) => some (v, ⟨h2⟩)

/-- `struct IntoIterSorted` (owns the heap). -/
structure IntoIterSorted (α : Type) where
  heap : BinaryHeap α

/-- `Iterator::next for IntoIterSorted`: `self.heap.pop()`. -/
def IntoIterSorted.next (it : IntoIterSorted α) : Option (α × IntoIterSorted α) :=
  match pop it.heap with
  | none => none
  | some (v, h2) => some (v, ⟨h2⟩)

/-- `BinaryHeap::drain_sorted`. -/
def drainSorted (h : BinaryHeap α) : DrainSorted α := ⟨h⟩

/-- `BinaryHeap::into_iter_sorted`. -/
def intoIterSorted (h : BinaryHeap α) : IntoIterSorted α := ⟨h⟩

/-- Manually consume `k` elements from a sorted extraction iterator by
repeated `next` (= `pop`); returns the yielded prefix and the rest. -/
def takePops (h : BinaryHeap α) : Nat → List α × BinaryHeap α
  | 0 => ([], h)
  | Nat.succ k =>
    match pop h with
    | none => ([], h)
    | some (v, h2) => ((v :: (takePops h2 k).1), (takePops h2 k).2)

/-- Insert a sequence one element at a time via `try_push` (the
incremental insertion path of the build-heap equivalence property). -/
def pushAll (h : BinaryHeap α) (l : List α) : BinaryHeap α :=
  l.foldl (fun g x => (tryPush g x).2) h

/-- `parent` with the `usize` underflow of `(i + 1) / 2 - 1` made explicit:
the subtraction underflows exactly when `(i + 1) / 2 = 0`. -/
def parentChecked (i : Nat) : Option Nat :=
  if 1 ≤ (i + 1) / 2 then some ((i + 1) / 2 - 1) else none

/-- The `try_push` sift-up loop with the parent computation
underflow-checked and every element read bounds-checked; `none` models an
underflow or out-of-bounds access. -/
def siftUpChecked (a : List α) (i : Nat) : Option (List α) :=
  if 0 < i then
    match hp : parentChecked i with
    | none => none
    | some p =>
      match a[p]?, a[i]? with
      | some x, some y =>
        if x < y then siftUpChecked (swap a i p) p else some a
      | _, _ => none
  else some a
termination_by i
decreasing_by
  rename_i h0
  simp only [parentChecked] at hp
  by_cases hc : 1 ≤ (i + 1) / 2
  · rw [if_pos hc] at hp
    have := Option.some.inj hp
    omega
  · rw [if_neg hc] at hp
    exact absurd hp (by simp)

/-- Invariant of the sift-up loop: all pairs other than the one above `i`
are heap-ordered, and the children of `i` are bounded by `i`'s parent. -/
def SiftUpInv (a : List α) (i : Nat) : Prop :=
  (∀ j, j < a.length → 0 < j → j ≠ i → get a j ≤ get a (parent j)) ∧
  (∀ j, j < a.length → 0 < j → parent j = i → 0 < i →
    get a j ≤ get a (parent i))

/-- Invariant of the build-heap loop: every pair whose parent index is at
least `k` is heap-ordered. -/
def PartHeap (a : List α) (k : Nat) : Prop :=
  ∀ j, j < a.length → 0 < j → k ≤ parent j → get a j ≤ get a (parent j)

/-- The full sequence of elements yielded by a `DrainSorted` iterator
(each `next` being one `pop`). -/
def DrainSorted.seq (it : DrainSorted α) : List α := popAll it.heap

/-- The full sequence of elements yielded by an `IntoIterSorted` iterator. -/
def IntoIterSorted.seq (it : IntoIterSorted α) : List α := popAll it.heap

theorem left_eq (i : Nat) : left i = 2 * i + 1 := by
  simp only [left]; omega

theorem right_eq (i : Nat) : right i = 2 * i + 2 := by
  simp only [right]; omega

theorem parent_left (i : Nat) : parent (left i) = i := by
  simp only [parent, left]; omega

theorem parent_right (i : Nat) : parent (right i) = i := by
  simp only [parent, right]; omega

theorem lt_left (i : Nat) : i < left i := by
  simp only [left]; omega

theorem lt_right (i : Nat) : i < right i := by
  simp only [right]; omega

theorem parent_lt {i : Nat} (h : 0 < i) : parent i < i := by
  simp only [parent]; omega

theorem parent_le (i : Nat) : parent i ≤ i := by
  simp only [parent]; omega

/-- Every index `j ≥ 1` is the left or the right child of its parent. -/
theorem child_of_parent {j : Nat} (h : 0 < j) :
    j = left (parent j) ∨ j = right (parent j) := by
  simp only [left, right, parent]; omega

theorem length_swap (a : List α) (i j : Nat) :
    (swap a i j).length = a.length := by
  simp [swap]

theorem get_append_left (a b : List α) {i : Nat} (h : i < a.length) :
    get (a ++ b) i = get a i := by
  simp [get, List.getD_eq_getElem?_getD, List.getElem?_append_left h]

theorem get_set_self (a : List α) {i : Nat} (h : i < a.length) (v : α) :
    get (a.set i v) i = v := by
  simp [get, List.getD_eq_getElem?_getD, List.getElem?_set_self, h]

theorem get_set_ne (a : List α) {i k : Nat} (h : k ≠ i) (v : α) :
    get (a.set i v) k = get a k := by
  simp [get, List.getD_eq_getElem?_getD, List.getElem?_set_ne h.symm]

theorem get_swap_left (a : List α) {i j : Nat} (hi : i < a.length)
    (hj : j < a.length) : get (swap a i j) i = get a j := by
  rcases eq_or_ne i j with rfl | hij
  · rw [swap, get_set_self _ (by simpa using hj)]
  · rw [swap, get_set_ne _ hij, get_set_self _ hi]

theorem get_swap_right (a : List α) {i j : Nat} (hj : j < a.length) :
    get (swap a i j) j = get a i := by
  rw [swap, get_set_self _ (by simpa using hj)]

theorem get_swap_ne (a : List α) {i j k : Nat} (h1 : k ≠ i) (h2 : k ≠ j) :
    get (swap a i j) k = get a k := by
  rw [swap, get_set_ne _ h2, get_set_ne _ h1]

theorem get_cons_succ (x : α) (t : List α) (i : Nat) :
    get (x :: t) (i + 1) = get t i := by
  simp [get]

theorem get_cons_zero (x : α) (t : List α) : get (x :: t) 0 = x := by
  simp [get]

/-- Replacing an in-bounds element and re-adding the old one is a permutation. -/
theorem perm_get_cons_set (t : List α) {j : Nat} (h : j < t.length) (v : α) :
    (get t j :: t.set j v).Perm (v :: t) := by
  induction t generalizing j with
  | nil => simp at h
  | cons c t ih =>
    cases j with
    | zero => simpa [get] using List.Perm.swap v c t
    | succ j =>
      have hj : j < t.length := by simpa using h
      have e1 : (get (c :: t) (j + 1) :: (c :: t).set (j + 1) v)
          = get t j :: c :: t.set j v := by simp [get_cons_succ]
      rw [e1]
      exact ((List.Perm.swap c (get t j) _).trans ((ih hj).cons c)).trans
        (List.Perm.swap v c t)

theorem swap_perm (a : List α) {i j : Nat} (hi : i < a.length)
    (hj : j < a.length) : (swap a i j).Perm a := by
  induction a generalizing i j with
  | nil => simp at hi
  | cons x t ih =>
    cases i with
    | zero =>
      cases j with
      | zero => simp [swap, get]
      | succ j =>
        have hj' : j < t.length := by simpa using hj
        have e : swap (x :: t) 0 (j + 1) = get t j :: t.set j x := by
          simp [swap, get_cons_succ, get_cons_zero, List.set_cons_succ]
        rw [e]
        exact perm_get_cons_set t hj' x
    | succ i =>
      cases j with
      | zero =>
        have hi' : i < t.length := by simpa using hi
        have e : swap (x :: t) (i + 1) 0 = get t i :: t.set i x := by
          simp [swap, get_cons_succ, get_cons_zero, List.set_cons_succ]
        rw [e]
        exact perm_get_cons_set t hi' x
      | succ j =>
        have hi' : i < t.length := by simpa using hi
        have hj' : j < t.length := by simpa using hj
        have e : swap (x :: t) (i + 1) (j + 1) = x :: swap t i j := by
          simp [swap, get_cons_succ, List.set_cons_succ]
        rw [e]
        exact (ih hi' hj').cons x

theorem inSubtree_refl (i : Nat) : inSubtree i i = true := by
  rw [inSubtree]; simp

theorem inSubtree_le {i j : Nat} (h : inSubtree i j = true) : i ≤ j := by
  induction j using Nat.strong_induction_on with
  | _ j ih =>
    rw [inSubtree] at h
    split at h
    · omega
    · split at h
      · omega
      · exact absurd h (by simp)

theorem inSubtree_zero (j : Nat) : inSubtree 0 j = true := by
  induction j using Nat.strong_induction_on with
  | _ j ih =>
    rw [inSubtree]
    split
    · rfl
    · split
      · exact ih (parent j) (parent_lt (by omega))
      · omega

theorem inSubtree_of_parent {i j : Nat} (hij : i < j)
    (h : inSubtree i (parent j) = true) : inSubtree i j = true := by
  rw [inSubtree, if_neg (show ¬ i = j by omega), if_pos hij]
  exact h

theorem inSubtree_parent_of_ne {i j : Nat} (hne : i ≠ j)
    (h : inSubtree i j = true) : inSubtree i (parent j) = true := by
  rw [inSubtree] at h
  split at h
  · next heq => exact absurd heq hne
  · split at h
    · exact h
    · exact absurd h (by simp)

theorem inSubtree_left (i : Nat) : inSubtree i (left i) = true := by
  apply inSubtree_of_parent (lt_left i)
  rw [parent_left]
  exact inSubtree_refl i

theorem inSubtree_right (i : Nat) : inSubtree i (right i) = true := by
  apply inSubtree_of_parent (lt_right i)
  rw [parent_right]
  exact inSubtree_refl i

theorem inSubtree_trans {i j k : Nat} (h1 : inSubtree i j = true)
    (h2 : inSubtree j k = true) : inSubtree i k = true := by
  induction k using Nat.strong_induction_on with
  | _ k ih =>
    rcases eq_or_ne j k with rfl | hne
    · exact h1
    · have hjk : j < k := lt_of_le_of_ne (inSubtree_le h2) hne
      have hik : i < k := lt_of_le_of_lt (inSubtree_le h1) hjk
      exact inSubtree_of_parent hik
        (ih (parent k) (parent_lt (by omega)) (inSubtree_parent_of_ne hne h2))

/-- Any index below a child of `j` is below `j`: `inSubtree` steps down. -/
theorem inSubtree_of_parent_mem {i j : Nat} (h : inSubtree i (parent j) = true)
    (hj : parent j < j) : inSubtree i j = true :=
  inSubtree_of_parent (lt_of_le_of_lt (inSubtree_le h) hj) h

/-- A node of the subtree at `i` is `i` itself, or lies in the subtree of one
of the two children of `i`. -/
theorem inSubtree_step {i j : Nat} (h : inSubtree i j = true) :
    j = i ∨ inSubtree (left i) j = true ∨ inSubtree (right i) j = true := by
  induction j using Nat.strong_induction_on with
  | _ j ih =>
    rcases eq_or_ne j i with rfl | hne
    · exact Or.inl rfl
    · have hij : i < j := lt_of_le_of_ne (inSubtree_le h) (Ne.symm hne)
      have hp : inSubtree i (parent j) = true :=
        inSubtree_parent_of_ne (Ne.symm hne) h
      rcases eq_or_ne (parent j) i with hpi | hpne
      · rcases child_of_parent (show 0 < j by omega) with hcl | hcr
        · exact Or.inr (Or.inl (by rw [hcl, hpi]; exact inSubtree_refl _))
        · exact Or.inr (Or.inr (by rw [hcr, hpi]; exact inSubtree_refl _))
      · have hplt : parent j < j := parent_lt (by omega)
        rcases ih (parent j) hplt hp with h0 | hL | hR
        · exact absurd h0 hpne
        · exact Or.inr (Or.inl (inSubtree_of_parent_mem hL hplt))
        · exact Or.inr (Or.inr (inSubtree_of_parent_mem hR hplt))

/-- The ancestors of any index form a chain: two subtrees containing a common
index are nested. -/
theorem inSubtree_chain {x y j : Nat} (hx : inSubtree x j = true)
    (hy : inSubtree y j = true) :
    inSubtree x y = true ∨ inSubtree y x = true := by
  induction j using Nat.strong_induction_on with
  | _ j ih =>
    rcases eq_or_ne x j with rfl | hxj
    · exact Or.inr hy
    · rcases eq_or_ne y j with rfl | hyj
      · exact Or.inl hx
      · have hj : x < j := lt_of_le_of_ne (inSubtree_le hx) hxj
        exact ih (parent j) (parent_lt (by omega))
          (inSubtree_parent_of_ne hxj hx) (inSubtree_parent_of_ne hyj hy)

/-- The subtrees of the two children of `i` are disjoint. -/
theorem inSubtree_children_disjoint {i j : Nat}
    (hL : inSubtree (left i) j = true) (hR : inSubtree (right i) j = true) :
    False := by
  rcases inSubtree_chain hL hR with h | h
  · have := inSubtree_le h
    have h1 := lt_left i
    have h2 := lt_right i
    rcases eq_or_ne (left i) (right i) with he | hne
    · simp only [left, right] at he; omega
    · have := inSubtree_parent_of_ne hne h
      rw [parent_right] at this
      have := inSubtree_le this
      simp only [left] at this ⊢; omega
  · have := inSubtree_le h
    simp only [left, right] at this; omega

theorem parent_mem_subtree {i j : Nat} (h : inSubtree i j = true)
    (hne : j ≠ i) : inSubtree i (parent j) = true :=
  inSubtree_parent_of_ne (Ne.symm hne) h

/-- If the parent of `j` lies in the subtree at `i`, so does `j`. -/
theorem mem_subtree_of_parent_mem {i j : Nat} (h0 : 0 < j)
    (h : inSubtree i (parent j) = true) : inSubtree i j = true :=
  inSubtree_of_parent_mem h (parent_lt h0)

theorem heapCand_spec (a : List α) (i : Nat) :
    heapCand a i = i ∨
      (heapCand a i = left i ∧ left i < a.length ∧
        get a i < get a (left i)) := by
  by_cases h1 : left i < a.length ∧ get a i < get a (left i)
  · rw [heapCand, if_pos h1]; exact Or.inr ⟨rfl, h1⟩
  · rw [heapCand, if_neg h1]; exact Or.inl rfl

theorem heapTarget_spec (a : List α) (i : Nat) :
    heapTarget a i = i ∨
      (i < heapTarget a i ∧ heapTarget a i < a.length) := by
  by_cases h2 : right i < a.length ∧ get a (heapCand a i) < get a (right i)
  · rw [heapTarget, if_pos h2]; exact Or.inr ⟨lt_right i, h2.1⟩
  · rw [heapTarget, if_neg h2]
    rcases heapCand_spec a i with h | ⟨he, hl, _⟩
    · exact Or.inl h
    · rw [he]; exact Or.inr ⟨lt_left i, hl⟩

/-- When `heapify` stops at `i`, neither child is strictly greater. -/
theorem heapTarget_eq_self {a : List α} {i : Nat} (h : heapTarget a i = i) :
    (left i < a.length → get a (left i) ≤ get a i) ∧
    (right i < a.length → get a (right i) ≤ get a i) := by
  have hli := lt_left i
  have hri := lt_right i
  by_cases h2 : right i < a.length ∧ get a (heapCand a i) < get a (right i)
  · rw [heapTarget, if_pos h2] at h; omega
  · rw [heapTarget, if_neg h2] at h
    push_neg at h2
    rcases heapCand_spec a i with hcand | ⟨hcand, _, _⟩
    · have h1 : ¬ (left i < a.length ∧ get a i < get a (left i)) := by
        intro hc
        rw [heapCand, if_pos hc] at hcand
        omega
      push_neg at h1
      exact ⟨fun hlt => h1 hlt, fun hrt => by
        have hb := h2 hrt
        rwa [hcand] at hb⟩
    · exact absurd (h.symm.trans hcand) (by omega)

/-- When `heapify` swaps, the target is a child strictly greater than the
element at `i`, and at least as great as the other child (left wins ties). -/
theorem heapTarget_ne {a : List α} {i : Nat} (h : heapTarget a i ≠ i) :
    (heapTarget a i = left i ∨ heapTarget a i = right i) ∧
    i < heapTarget a i ∧ heapTarget a i < a.length ∧
    get a i < get a (heapTarget a i) ∧
    (∀ o, (o = left i ∨ o = right i) → o ≠ heapTarget a i → o < a.length →
      get a o ≤ get a (heapTarget a i)) := by
  have hlr : left i ≠ right i := by simp only [left, right]; omega
  have hli := lt_left i
  have hri := lt_right i
  by_cases h2 : right i < a.length ∧ get a (heapCand a i) < get a (right i)
  · have ht : heapTarget a i = right i := by rw [heapTarget, if_pos h2]
    rw [ht]
    rcases heapCand_spec a i with hcand | ⟨hcand, hllen, hlval⟩
    · have h1 : ¬ (left i < a.length ∧ get a i < get a (left i)) := by
        intro hc
        rw [heapCand, if_pos hc] at hcand
        omega
      push_neg at h1
      have hv : get a i < get a (right i) := by
        have hb := h2.2; rwa [hcand] at hb
      refine ⟨Or.inr rfl, lt_right i, h2.1, hv, ?_⟩
      intro o ho hne hol
      rcases ho with rfl | rfl
      · exact le_trans (h1 hol) (le_of_lt hv)
      · omega
    · have hv : get a (left i) < get a (right i) := by
        have hb := h2.2; rwa [hcand] at hb
      refine ⟨Or.inr rfl, lt_right i, h2.1, lt_trans hlval hv, ?_⟩
      intro o ho hne hol
      rcases ho with rfl | rfl
      · exact le_of_lt hv
      · omega
  · have ht : heapTarget a i = heapCand a i := by rw [heapTarget, if_neg h2]
    rcases heapCand_spec a i with hcand | ⟨hcand, hllen, hlval⟩
    · exact absurd (ht.trans hcand) h
    · rw [ht, hcand]
      push_neg at h2
      refine ⟨Or.inl rfl, lt_left i, hllen, hlval, ?_⟩
      intro o ho hne hol
      rcases ho with rfl | rfl
      · omega
      · have := h2 hol
        rwa [hcand] at this

theorem length_heapify (a : List α) (i : Nat) :
    (heapify a i).length = a.length := by
  induction a, i using heapify.induct with
  | case1 a i h => rw [heapify, if_pos h]
  | case2 a i h ih => rw [heapify, if_neg h, ih, length_swap]

theorem heapify_perm (a : List α) (i : Nat) : (heapify a i).Perm a := by
  induction a, i using heapify.induct with
  | case1 a i h => rw [heapify, if_pos h]
  | case2 a i h ih =>
    rw [heapify, if_neg h]
    obtain ⟨_, hit, hlen, _, _⟩ := heapTarget_ne h
    exact ih.trans (swap_perm a (lt_trans hit hlen) hlen)

theorem not_inSubtree_of_lt {i j : Nat} (h : j < i) :
    ¬ inSubtree i j = true := fun hm => absurd (inSubtree_le hm) (by omega)

theorem inSubtree_target {a : List α} {i : Nat} (h : heapTarget a i ≠ i) :
    inSubtree i (heapTarget a i) = true := by
  obtain ⟨hc, _, _, _, _⟩ := heapTarget_ne h
  rcases hc with hc | hc
  · rw [hc]; exact inSubtree_left i
  · rw [hc]; exact inSubtree_right i

/-- `heapify a i` leaves every index outside the subtree at `i` unchanged. -/
theorem heapify_get_outside (a : List α) (i : Nat) :
    ∀ j, ¬ inSubtree i j = true → get (heapify a i) j = get a j := by
  induction a, i using heapify.induct with
  | case1 a i h => rw [heapify, if_pos h]; intro j _; rfl
  | case2 a i h ih =>
    rw [heapify, if_neg h]
    intro j hj
    have htmem : inSubtree i (heapTarget a i) = true := inSubtree_target h
    have hjt : ¬ inSubtree (heapTarget a i) j = true := fun hm =>
      hj (inSubtree_trans htmem hm)
    rw [ih j hjt]
    exact get_swap_ne a (fun he => hj (he ▸ inSubtree_refl i))
      (fun he => hj (he ▸ htmem))

/-- `heapify` introduces no new values into the subtree at `i`: any upper
bound on the subtree's values is preserved. -/
theorem heapify_get_le (a : List α) (i : Nat) (c : α) :
    (∀ j, j < a.length → inSubtree i j = true → get a j ≤ c) →
    ∀ j, j < a.length → inSubtree i j = true → get (heapify a i) j ≤ c := by
  induction a, i using heapify.induct with
  | case1 a i h => rw [heapify, if_pos h]; exact fun hc => hc
  | case2 a i h ih =>
    rw [heapify, if_neg h]
    intro hc j hj hmem
    obtain ⟨hchild, hit, htlen, hval, hother⟩ := heapTarget_ne h
    have hilen : i < a.length := lt_trans hit htlen
    have htmem : inSubtree i (heapTarget a i) = true := inSubtree_target h
    have hc' : ∀ k, k < (swap a i (heapTarget a i)).length →
        inSubtree (heapTarget a i) k = true →
        get (swap a i (heapTarget a i)) k ≤ c := by
      intro k hk hkmem
      rcases eq_or_ne k (heapTarget a i) with rfl | hkt
      · rw [get_swap_right a htlen]
        exact hc i hilen (inSubtree_refl i)
      · have hki : k ≠ i := fun he =>
          absurd (inSubtree_le hkmem) (by omega)
        rw [get_swap_ne a hki hkt]
        exact hc k (by rwa [length_swap] at hk) (inSubtree_trans htmem hkmem)
    by_cases hjt : inSubtree (heapTarget a i) j = true
    · exact ih hc' j (by rwa [length_swap]) hjt
    · rw [heapify_get_outside _ _ j hjt]
      rcases eq_or_ne j i with rfl | hji
      · rw [get_swap_left a hilen htlen]
        exact hc _ htlen htmem
      · have hjt' : j ≠ heapTarget a i := fun he =>
          hjt (he ▸ inSubtree_refl _)
        rw [get_swap_ne a hji hjt']
        exact hc j hj hmem

/-- In a subtree whose internal pairs are all heap-ordered, every value is
bounded by the value at the subtree's root. -/
theorem le_root_of_subtree (a : List α) (m : Nat)
    (hyp : ∀ j, j < a.length → inSubtree m j = true → j ≠ m →
      get a j ≤ get a (parent j)) :
    ∀ k, k < a.length → inSubtree m k = true → get a k ≤ get a m := by
  intro k
  induction k using Nat.strong_induction_on with
  | _ k ih =>
    intro hk hkmem
    rcases eq_or_ne k m with rfl | hne
    · exact le_refl _
    · have hmk : m < k := lt_of_le_of_ne (inSubtree_le hkmem) (Ne.symm hne)
      have hpl : parent k < k := parent_lt (by omega)
      exact le_trans (hyp k hk hkmem hne)
        (ih (parent k) hpl (lt_trans hpl hk) (parent_mem_subtree hkmem hne))

/-- Main sift-down correctness (CLRS `MAX-HEAPIFY`): if every pair inside
the subtree at `i` other than the pairs rooted at `i` itself is heap-ordered,
then after `heapify a i` the whole subtree at `i` is heap-ordered. -/
theorem heapify_correct (a : List α) (i : Nat) :
    (∀ j, j < a.length → inSubtree i j = true → j ≠ i → parent j ≠ i →
      get a j ≤ get a (parent j)) →
    ∀ j, j < a.length → inSubtree i j = true → j ≠ i →
      get (heapify a i) j ≤ get (heapify a i) (parent j) := by
  induction a, i using heapify.induct with
  | case1 a i h =>
    rw [heapify, if_pos h]
    intro hyp j hj hmem hne
    rcases eq_or_ne (parent j) i with hp | hp
    · have h0 : 0 < j := by
        have := inSubtree_le hmem
        rcases Nat.eq_zero_or_pos j with rfl | h0
        · exact absurd (Nat.le_zero.mp this).symm hne
        · exact h0
      rw [hp]
      rcases child_of_parent h0 with hc | hc
      · rw [hp] at hc
        rw [hc] at hj ⊢
        exact (heapTarget_eq_self h).1 hj
      · rw [hp] at hc
        rw [hc] at hj ⊢
        exact (heapTarget_eq_self h).2 hj
    · exact hyp j hj hmem hne hp
  | case2 a i h ih =>
    intro hyp
    rw [heapify, if_neg h]
    obtain ⟨hchild, hit, htlen, hval, hother⟩ := heapTarget_ne h
    have hilen : i < a.length := lt_trans hit htlen
    have htmem : inSubtree i (heapTarget a i) = true := inSubtree_target h
    have hpt : parent (heapTarget a i) = i := by
      rcases hchild with hc | hc
      · rw [hc, parent_left]
      · rw [hc, parent_right]
    -- pairs strictly inside the target's subtree in `a`
    have hinner : ∀ j, j < a.length → inSubtree (heapTarget a i) j = true →
        j ≠ heapTarget a i → get a j ≤ get a (parent j) := by
      intro j hj hmem hne
      have hji : j ≠ i := by
        have := inSubtree_le hmem; omega
      have hpmem : inSubtree (heapTarget a i) (parent j) = true :=
        parent_mem_subtree hmem hne
      have hpi : parent j ≠ i := by
        have := inSubtree_le hpmem; omega
      exact hyp j hj (inSubtree_trans htmem hmem) hji hpi
    -- the sift-up hypothesis for the recursive call on the swapped array
    have hyp' : ∀ j, j < (swap a i (heapTarget a i)).length →
        inSubtree (heapTarget a i) j = true → j ≠ heapTarget a i →
        parent j ≠ heapTarget a i →
        get (swap a i (heapTarget a i)) j ≤
          get (swap a i (heapTarget a i)) (parent j) := by
      intro j hj hmem hne hpne
      have hji : j ≠ i := by
        have := inSubtree_le hmem; omega
      have hpmem : inSubtree (heapTarget a i) (parent j) = true :=
        parent_mem_subtree hmem hne
      have hpi : parent j ≠ i := by
        have := inSubtree_le hpmem; omega
      rw [get_swap_ne a hji hne, get_swap_ne a hpi hpne]
      exact hinner j (by rwa [length_swap] at hj) hmem hne
    have ihc := ih hyp'
    -- values in the target's subtree stay bounded by the swapped-in maximum
    have hchain : ∀ k, k < a.length → inSubtree (heapTarget a i) k = true →
        get a k ≤ get a (heapTarget a i) :=
      le_root_of_subtree a (heapTarget a i) hinner
    have hbound : ∀ j, j < a.length → inSubtree (heapTarget a i) j = true →
        get (heapify (swap a i (heapTarget a i)) (heapTarget a i)) j ≤
          get a (heapTarget a i) := by
      intro j hj hmem
      refine heapify_get_le _ _ _ ?_ j (by rwa [length_swap]) hmem
      intro k hk hkmem
      rcases eq_or_ne k (heapTarget a i) with rfl | hkt
      · rw [get_swap_right a htlen]
        exact le_of_lt hval
      · have hki : k ≠ i := by
          have := inSubtree_le hkmem; omega
        rw [get_swap_ne a hki hkt]
        exact hchain k (by rwa [length_swap] at hk) hkmem
    have hroot : get (heapify (swap a i (heapTarget a i)) (heapTarget a i)) i
        = get a (heapTarget a i) := by
      rw [heapify_get_outside _ _ i (not_inSubtree_of_lt hit),
        get_swap_left a hilen htlen]
    -- pairs inside the subtree of the *other* child of `i` are untouched
    have hfinish : ∀ o, (o = left i ∨ o = right i) → o ≠ heapTarget a i →
        ∀ j, j < a.length → inSubtree o j = true → j ≠ i →
        ¬ inSubtree (heapTarget a i) j = true →
        get (heapify (swap a i (heapTarget a i)) (heapTarget a i)) j ≤
          get (heapify (swap a i (heapTarget a i)) (heapTarget a i))
            (parent j) := by
      intro o hoor hot j hj hjo hne hjt
      have hio : i < o := by
        rcases hoor with rfl | rfl
        · exact lt_left i
        · exact lt_right i
      have hdisj : ∀ k, inSubtree o k = true →
          ¬ inSubtree (heapTarget a i) k = true := by
        intro k hko hkt
        rcases hoor with rfl | rfl <;> rcases hchild with hc | hc
        · exact hot hc.symm
        · exact inSubtree_children_disjoint hko (hc ▸ hkt)
        · exact inSubtree_children_disjoint (hc ▸ hkt) hko
        · exact hot hc.symm
      have hjne_t : j ≠ heapTarget a i := fun he =>
        hjt (he ▸ inSubtree_refl _)
      rcases eq_or_ne j o with heq | hjno
      · -- the pair (i, other child)
        have hj_or : j = left i ∨ j = right i := by rw [heq]; exact hoor
        have hpo : parent j = i := by
          rcases hj_or with hc | hc
          · rw [hc]; exact parent_left i
          · rw [hc]; exact parent_right i
        rw [hpo, hroot, heapify_get_outside _ _ j (hdisj j hjo),
          get_swap_ne a hne hjne_t]
        exact hother j hj_or hjne_t hj
      · -- a pair strictly inside the other child's subtree
        have hpmem : inSubtree o (parent j) = true :=
          parent_mem_subtree hjo hjno
        have hpi : parent j ≠ i := by
          have := inSubtree_le hpmem; omega
        have hpt' : parent j ≠ heapTarget a i := fun he =>
          (hdisj (parent j) hpmem) (he ▸ inSubtree_refl _)
        rw [heapify_get_outside _ _ j (hdisj j hjo),
          heapify_get_outside _ _ (parent j) (hdisj (parent j) hpmem),
          get_swap_ne a hne hjne_t, get_swap_ne a hpi hpt']
        have homem : inSubtree i o = true := by
          rcases hoor with rfl | rfl
          · exact inSubtree_left i
          · exact inSubtree_right i
        exact hyp j hj (inSubtree_trans homem hjo) hne hpi
    intro j hj hmem hne
    by_cases hjt : inSubtree (heapTarget a i) j = true
    · rcases eq_or_ne j (heapTarget a i) with heq | hjne
      · -- the pair (i, target)
        rw [heq, hpt, hroot]
        exact hbound (heapTarget a i) htlen (inSubtree_refl _)
      · exact ihc j (by rwa [length_swap]) hjt hjne
    · -- `j` lies in the subtree of the other child of `i`
      rcases inSubtree_step hmem with rfl | hL | hR
      · exact absurd rfl hne
      · have hot : left i ≠ heapTarget a i := fun he => hjt (he ▸ hL)
        exact hfinish (left i) (Or.inl rfl) hot j hj hL hne hjt
      · have hot : right i ≠ heapTarget a i := fun he => hjt (he ▸ hR)
        exact hfinish (right i) (Or.inr rfl) hot j hj hR hne hjt

theorem pop_eq_none_iff (h : BinaryHeap α) : pop h = none ↔ h.a = [] := by
  rw [pop]
  rcases h with ⟨cap, a⟩
  cases a <;> simp

theorem pop_dest {h : BinaryHeap α} {v : α} {h2 : BinaryHeap α}
    (hp : pop h = some (v, h2)) :
    h.a ≠ [] ∧ v = get h.a 0 ∧ h2.cap = h.cap ∧
      h2.a = heapify ((swap h.a 0 (h.a.length - 1)).dropLast) 0 := by
  rw [pop] at hp
  by_cases he : h.a.isEmpty
  · rw [if_pos he] at hp; exact absurd hp (by simp)
  · rw [if_neg he] at hp
    have := Option.some.inj hp
    refine ⟨by simpa [List.isEmpty_iff] using he, ?_, ?_, ?_⟩
    · exact (congrArg Prod.fst this).symm
    · exact (congrArg (fun p => (Prod.snd p).cap) this).symm
    · exact (congrArg (fun p => (Prod.snd p).a) this).symm

theorem pop_length {h : BinaryHeap α} {v : α} {h2 : BinaryHeap α}
    (hp : pop h = some (v, h2)) : h2.a.length + 1 = h.a.length := by
  obtain ⟨hne, _, _, ha⟩ := pop_dest hp
  have h1 : 0 < h.a.length := List.length_pos.mpr hne
  rw [ha, length_heapify, List.length_dropLast, length_swap]
  omega

theorem siftUp_correct (a : List α) (i : Nat) :
    i < a.length → SiftUpInv a i → IsHeap (siftUp a i) := by
  induction a, i using siftUp.induct with
  | case2 a i hcond =>
    rw [siftUp, if_neg hcond]
    intro hi hinv j hj h0
    rcases eq_or_ne j i with rfl | hne
    · rcases Nat.eq_zero_or_pos j with rfl | hpos
      · omega
      · rcases not_and_or.mp hcond with hc | hc
        · omega
        · exact le_of_not_lt hc
    · exact hinv.1 j hj h0 hne
  | case1 a i hcond ih =>
    rw [siftUp, if_pos hcond]
    intro hi hinv
    obtain ⟨h0, hlt⟩ := hcond
    have hpl : parent i < i := parent_lt h0
    have hplen : parent i < a.length := lt_trans hpl hi
    have hswl : get (swap a i (parent i)) i = get a (parent i) :=
      get_swap_left a hi hplen
    have hswr : get (swap a i (parent i)) (parent i) = get a i :=
      get_swap_right a hplen
    refine ih (by rwa [length_swap]) ⟨?_, ?_⟩
    · intro j hj hj0 hjp
      rw [length_swap] at hj
      rcases eq_or_ne j i with rfl | hji
      · rw [hswl, hswr]
        exact le_of_lt hlt
      · have hgj : get (swap a i (parent i)) j = get a j :=
          get_swap_ne a hji hjp
        rcases eq_or_ne (parent j) i with hpj | hpj
        · rw [hgj, hpj, hswl]
          exact hinv.2 j hj hj0 hpj h0
        · rcases eq_or_ne (parent j) (parent i) with hpp | hpp
          · rw [hgj, hpp, hswr]
            exact le_trans (hinv.1 j hj hj0 hji) (by rw [hpp]; exact le_of_lt hlt)
          · rw [hgj, get_swap_ne a hpj hpp]
            exact hinv.1 j hj hj0 hji
    · intro j hj hj0 hpj hp0
      rw [length_swap] at hj
      have hppl : parent (parent i) < parent i := parent_lt hp0
      have hppi : parent (parent i) ≠ i := by omega
      have hppp : parent (parent i) ≠ parent i := by omega
      have hgpp : get (swap a i (parent i)) (parent (parent i))
          = get a (parent (parent i)) := get_swap_ne a hppi hppp
      rw [hgpp]
      have hpjlt : parent j < j := parent_lt hj0
      rcases eq_or_ne j i with rfl | hji
      · rw [hswl]
        exact hinv.1 (parent j) hplen hp0 (by omega)
      · rw [get_swap_ne a hji (by omega : j ≠ parent i)]
        calc get a j ≤ get a (parent j) := hinv.1 j hj hj0 hji
          _ = get a (parent i) := by rw [hpj]
          _ ≤ get a (parent (parent i)) := hinv.1 (parent i) hplen hp0 (by omega)

theorem siftUp_perm (a : List α) (i : Nat) :
    i < a.length → (siftUp a i).Perm a := by
  induction a, i using siftUp.induct with
  | case2 a i hcond =>
    rw [siftUp, if_neg hcond]
    intro _
    exact List.Perm.refl a
  | case1 a i hcond ih =>
    rw [siftUp, if_pos hcond]
    intro hi
    have hplen : parent i < a.length := lt_trans (parent_lt hcond.1) hi
    exact (ih (by rwa [length_swap])).trans (swap_perm a hi hplen)

theorem length_siftUp (a : List α) (i : Nat) :
    (siftUp a i).length = a.length := by
  induction a, i using siftUp.induct with
  | case2 a i hcond => rw [siftUp, if_neg hcond]
  | case1 a i hcond ih => rw [siftUp, if_pos hcond, ih, length_swap]

/-- A freshly appended element satisfies the sift-up invariant at the new
last index of a heap. -/
theorem siftUpInv_append {a : List α} (hh : IsHeap a) (x : α) :
    SiftUpInv (a ++ [x]) a.length := by
  constructor
  · intro j hj hj0 hjn
    rw [List.length_append, List.length_singleton] at hj
    have hjlt : j < a.length := by omega
    have hplt : parent j < a.length := lt_of_le_of_lt (parent_le j) hjlt
    rw [get_append_left _ _ hjlt, get_append_left _ _ hplt]
    exact hh j hjlt hj0
  · intro j hj hj0 hpj _
    rw [List.length_append, List.length_singleton] at hj
    have : parent j < j := parent_lt hj0
    omega

theorem tryPush_isHeap (h : BinaryHeap α) (x : α) (hh : IsHeap h.a) :
    IsHeap ((tryPush h x).2).a := by
  rw [tryPush, vecTryPush]
  by_cases hlt : h.a.length < h.cap
  · rw [if_pos hlt]
    show IsHeap (siftUp (h.a ++ [x]) ((h.a ++ [x]).length - 1))
    have hlen : (h.a ++ [x]).length - 1 = h.a.length := by simp
    rw [hlen]
    exact siftUp_correct _ _ (by simp) (siftUpInv_append hh x)
  · rw [if_neg hlt]
    exact hh

/-- `try_push` on a full heap: the error carries the item and the heap
value is returned untouched. -/
theorem tryPush_full (h : BinaryHeap α) (x : α) (hfull : h.a.length = h.cap) :
    tryPush h x = (Except.error x, h) := by
  rw [tryPush, vecTryPush, if_neg (by omega)]

theorem tryPush_success_perm (h : BinaryHeap α) (x : α)
    (hlt : h.a.length < h.cap) :
    (tryPush h x).1 = Except.ok () ∧
      ((tryPush h x).2).a.Perm (x :: h.a) ∧ (tryPush h x).2.cap = h.cap := by
  rw [tryPush, vecTryPush, if_pos hlt]
  refine ⟨rfl, ?_, rfl⟩
  show (siftUp (h.a ++ [x]) ((h.a ++ [x]).length - 1)).Perm (x :: h.a)
  have hlen : (h.a ++ [x]).length - 1 < (h.a ++ [x]).length := by simp
  exact (siftUp_perm _ _ hlen).trans (List.perm_append_singleton x h.a)

theorem get_dropLast (a : List α) {j : Nat} (h : j < a.length - 1) :
    get a.dropLast j = get a j := by
  rw [get, get, List.dropLast_eq_take, List.getD_eq_getElem?_getD,
    List.getD_eq_getElem?_getD, List.getElem?_take, if_pos h]

theorem get_getLast (a : List α) (h : a ≠ []) :
    get a (a.length - 1) = a.getLast h := by
  have hl : a.length - 1 < a.length := by
    have := List.length_pos.mpr h; omega
  rw [get, List.getD_eq_getElem?_getD, List.getElem?_eq_getElem hl,
    List.getLast_eq_getElem]
  rfl

/-- `Vec::swap_remove(0)` splits a nonempty list into its head and a
permutation of its tail. -/
theorem perm_swapRemoveFront (a : List α) (hne : a ≠ []) :
    (get a 0 :: (swap a 0 (a.length - 1)).dropLast).Perm a := by
  rcases a with _ | ⟨x, t⟩
  · exact absurd rfl hne
  · rcases eq_or_ne t [] with rfl | htne
    · simp [swap, get]
    · have htpos : 0 < t.length := List.length_pos.mpr htne
      have hm : (x :: t).length - 1 = (t.length - 1) + 1 := by
        simp; omega
      have hget : get (x :: t) ((t.length - 1) + 1) = get t (t.length - 1) :=
        get_cons_succ x t (t.length - 1)
      have e1 : swap (x :: t) 0 ((t.length - 1) + 1)
          = get t (t.length - 1) :: t.set (t.length - 1) x := by
        rw [swap, hget, get_cons_zero]
        rfl
      have e_t : t.dropLast ++ [t.getLast htne] = t :=
        List.dropLast_append_getLast htne
      have hdl : t.length - 1 = t.dropLast.length := by
        rw [List.length_dropLast]
      have e2 : t.set (t.length - 1) x = t.dropLast ++ [x] := by
        conv_lhs => rw [← e_t]
        have hidx : (t.dropLast ++ [t.getLast htne]).length - 1
            = t.dropLast.length := by simp
        rw [hidx, List.set_append_right _ _ (le_refl _)]
        simp
      have e3 : (get t (t.length - 1) :: t.set (t.length - 1) x).dropLast
          = get t (t.length - 1) :: t.dropLast := by
        rw [List.dropLast_cons_of_ne_nil (by simp [e2]), e2,
          List.dropLast_concat]
      rw [hm, e1, e3, get_cons_zero, get_getLast t htne]
      refine List.Perm.cons x ?_
      conv_rhs => rw [← e_t]
      exact (List.perm_append_singleton _ _).symm

theorem pop_perm {h : BinaryHeap α} {v : α} {h2 : BinaryHeap α}
    (hp : pop h = some (v, h2)) : (v :: h2.a).Perm h.a := by
  obtain ⟨hne, hv, _, ha⟩ := pop_dest hp
  rw [hv, ha]
  exact ((heapify_perm _ 0).cons _).trans (perm_swapRemoveFront h.a hne)

theorem pop_isHeap {h : BinaryHeap α} {v : α} {h2 : BinaryHeap α}
    (hh : IsHeap h.a) (hp : pop h = some (v, h2)) : IsHeap h2.a := by
  obtain ⟨hne, _, _, ha⟩ := pop_dest hp
  have hn : 0 < h.a.length := List.length_pos.mpr hne
  have hblen : ((swap h.a 0 (h.a.length - 1)).dropLast).length
      = h.a.length - 1 := by
    rw [List.length_dropLast, length_swap]
  have hbget : ∀ j, 0 < j →
      j < ((swap h.a 0 (h.a.length - 1)).dropLast).length →
      get ((swap h.a 0 (h.a.length - 1)).dropLast) j = get h.a j := by
    intro j hj0 hjb
    rw [hblen] at hjb
    rw [get_dropLast _ (by rw [length_swap]; omega),
      get_swap_ne h.a (by omega) (by omega)]
  have hyp : ∀ j, j < ((swap h.a 0 (h.a.length - 1)).dropLast).length →
      inSubtree 0 j = true → j ≠ 0 → parent j ≠ 0 →
      get ((swap h.a 0 (h.a.length - 1)).dropLast) j ≤
        get ((swap h.a 0 (h.a.length - 1)).dropLast) (parent j) := by
    intro j hj _ hne0 hpne0
    have hj0 : 0 < j := Nat.pos_of_ne_zero hne0
    have hp0 : 0 < parent j := Nat.pos_of_ne_zero hpne0
    have hpj : parent j < j := parent_lt hj0
    rw [hbget j hj0 hj, hbget (parent j) hp0 (by omega)]
    rw [hblen] at hj
    exact hh j (by omega) hj0
  rw [ha]
  intro j hj h0
  rw [length_heapify] at hj
  exact heapify_correct _ 0 hyp j hj (inSubtree_zero j) (by omega)

/-- In a max-heap the root bounds every element. -/
theorem isHeap_le_root {a : List α} (hh : IsHeap a) :
    ∀ k, k < a.length → get a k ≤ get a 0 := by
  intro k hk
  refine le_root_of_subtree a 0 ?_ k hk (inSubtree_zero k)
  intro j hj _ hne
  exact hh j hj (Nat.pos_of_ne_zero hne)

theorem exists_get_of_mem {a : List α} {x : α} (hx : x ∈ a) :
    ∃ k, k < a.length ∧ get a k = x := by
  obtain ⟨n, hn, he⟩ := List.mem_iff_getElem.mp hx
  exact ⟨n, hn, by
    rw [get, List.getD_eq_getElem?_getD, List.getElem?_eq_getElem hn, he]
    rfl⟩

theorem le_root_of_mem {a : List α} (hh : IsHeap a) {x : α} (hx : x ∈ a) :
    x ≤ get a 0 := by
  obtain ⟨k, hk, he⟩ := exists_get_of_mem hx
  exact he ▸ isHeap_le_root hh k hk

/-- The element returned by `pop` dominates everything left in the heap. -/
theorem pop_max {h : BinaryHeap α} {v : α} {h2 : BinaryHeap α}
    (hh : IsHeap h.a) (hp : pop h = some (v, h2)) :
    ∀ x ∈ h2.a, x ≤ v := by
  intro x hx
  obtain ⟨hne, hv, _, _⟩ := pop_dest hp
  have hmem : x ∈ h.a := (pop_perm hp).mem_iff.mp (List.mem_cons_of_mem v hx)
  rw [hv]
  exact le_root_of_mem hh hmem

theorem popAll_eq_nil {h : BinaryHeap α} (hp : pop h = none) :
    popAll h = [] := by
  rw [popAll]
  cases hl : h.a.length with
  | zero => rfl
  | succ n =>
    rw [popAllFuel]
    simp [hp]

theorem popAll_eq_cons {h : BinaryHeap α} {v : α} {h2 : BinaryHeap α}
    (hp : pop h = some (v, h2)) : popAll h = v :: popAll h2 := by
  have hlen := pop_length hp
  rw [popAll, popAll, ← hlen, popAllFuel]
  simp [hp]

theorem popAll_sorted_perm :
    ∀ n (g : BinaryHeap α), g.a.length = n → IsHeap g.a →
      (popAll g).Sorted (· ≥ ·) ∧ (popAll g).Perm g.a := by
  intro n
  induction n using Nat.strong_induction_on with
  | _ n ih =>
    intro g hlen hh
    rcases hm : pop g with _ | ⟨v, h2⟩
    · rw [popAll_eq_nil hm, (pop_eq_none_iff g).mp hm]
      exact ⟨List.sorted_nil, List.Perm.refl []⟩
    · rw [popAll_eq_cons hm]
      have hl2 := pop_length hm
      have hh2 : IsHeap h2.a := pop_isHeap hh hm
      obtain ⟨hs2, hp2⟩ := ih h2.a.length (by omega) h2 rfl hh2
      constructor
      · refine List.sorted_cons.mpr ⟨?_, hs2⟩
        intro b hb
        exact pop_max hh hm b (hp2.mem_iff.mp hb)
      · exact (hp2.cons v).trans (pop_perm hm)

/-- Repeatedly popping a valid max-heap yields a non-increasing permutation
of its contents. -/
theorem popAll_correct (h : BinaryHeap α) (hh : IsHeap h.a) :
    (popAll h).Sorted (· ≥ ·) ∧ (popAll h).Perm h.a :=
  popAll_sorted_perm h.a.length h rfl hh

theorem partHeap_init (a : List α) : PartHeap a (a.length / 2) := by
  intro j hj hj0 hpj
  exfalso
  simp only [parent] at hpj
  omega

theorem partHeap_step {a : List α} {k : Nat} (hph : PartHeap a (k + 1)) :
    PartHeap (heapify a k) k := by
  have hyp : ∀ j, j < a.length → inSubtree k j = true → j ≠ k →
      parent j ≠ k → get a j ≤ get a (parent j) := by
    intro j hj hmem hne hpne
    have hpmem : inSubtree k (parent j) = true := parent_mem_subtree hmem hne
    have hkp : k ≤ parent j := inSubtree_le hpmem
    have hkj : k < j := lt_of_le_of_ne (inSubtree_le hmem) (Ne.symm hne)
    exact hph j hj (by omega) (by omega)
  intro j hj hj0 hk
  rw [length_heapify] at hj
  by_cases hmem : inSubtree k j = true
  · have hne : j ≠ k := by
      have := parent_lt hj0
      omega
    exact heapify_correct a k hyp j hj hmem hne
  · have hpk : parent j ≠ k := by
      intro he
      exact hmem (mem_subtree_of_parent_mem hj0 (he ▸ inSubtree_refl k))
    have hpnot : ¬ inSubtree k (parent j) = true := by
      intro hpm
      exact hmem (mem_subtree_of_parent_mem hj0 hpm)
    rw [heapify_get_outside a k j hmem,
      heapify_get_outside a k (parent j) hpnot]
    exact hph j hj hj0 (by omega)

theorem buildHeapLoop_partHeap :
    ∀ (k : Nat) (a : List α), PartHeap a k → PartHeap (buildHeapLoop a k) 0 := by
  intro k
  induction k with
  | zero => exact fun a h => h
  | succ k ih =>
    intro a hph
    rw [buildHeapLoop]
    exact ih (heapify a k) (partHeap_step hph)

theorem isHeap_of_partHeap_zero {a : List α} (h : PartHeap a 0) : IsHeap a :=
  fun j hj hj0 => h j hj hj0 (Nat.zero_le _)

/-- The `From<Vec>` build-heap loop establishes the max-heap invariant. -/
theorem buildHeapLoop_isHeap (a : List α) :
    IsHeap (buildHeapLoop a (a.length / 2)) :=
  isHeap_of_partHeap_zero (buildHeapLoop_partHeap _ a (partHeap_init a))

theorem buildHeapLoop_perm :
    ∀ (k : Nat) (a : List α), (buildHeapLoop a k).Perm a := by
  intro k
  induction k with
  | zero => exact fun a => List.Perm.refl a
  | succ k ih =>
    intro a
    rw [buildHeapLoop]
    exact (ih (heapify a k)).trans (heapify_perm a k)

theorem fromVec_isHeap (cap : Nat) (a : List α) : IsHeap (fromVec cap a).a :=
  buildHeapLoop_isHeap a

theorem fromVec_perm (cap : Nat) (a : List α) : (fromVec cap a).a.Perm a :=
  buildHeapLoop_perm _ a

theorem extendHeap_isHeap (h : BinaryHeap α) (l : List α) :
    IsHeap (extendHeap h l).a :=
  buildHeapLoop_isHeap (h.a ++ l)

theorem extendHeap_perm (h : BinaryHeap α) (l : List α) :
    (extendHeap h l).a.Perm (h.a ++ l) :=
  buildHeapLoop_perm _ (h.a ++ l)

theorem get_eq_getElem (a : List α) {k : Nat} (h : k < a.length) :
    get a k = a.get ⟨k, h⟩ := by
  rw [get, List.getD_eq_getElem?_getD, List.getElem?_eq_getElem h]
  rfl

theorem heapTarget_nil (i : Nat) : heapTarget ([] : List α) i = i := by
  simp [heapTarget, heapCand]

theorem heapify_nil (i : Nat) : heapify ([] : List α) i = [] := by
  rw [heapify, if_pos (heapTarget_nil i)]

theorem swap_append (c d : List α) {i j : Nat} (hi : i < c.length)
    (hj : j < c.length) : swap (c ++ d) i j = swap c i j ++ d := by
  rw [swap, swap, get_append_left c d hj, get_append_left c d hi,
    List.set_append_left _ _ hi, List.set_append_left _ _ (by simpa using hj)]

theorem drop_pred_of_length (a : List α) {n : Nat} (h : a.length = n + 1) :
    a.drop n = [get a n] := by
  have hn : n < a.length := by omega
  rw [List.drop_eq_getElem_cons hn, List.drop_eq_nil_of_le (by omega),
    get_eq_getElem a hn]
  rfl

/-- One iteration of the `into_sorted_vec` loop on the whole occupied range
is exactly `pop`'s array update with the popped root parked in the vacated
last slot. -/
theorem intoSorted_body_eq (a : List α) {k : Nat} (hlen : a.length = k + 2) :
    heapify ((swap a 0 (k + 1)).take (k + 1)) 0 ++
        (swap a 0 (k + 1)).drop (k + 1)
      = heapify ((swap a 0 (a.length - 1)).dropLast) 0 ++ [get a 0] := by
  have he : a.length - 1 = k + 1 := by omega
  rw [he]
  have hsl : (swap a 0 (k + 1)).length = k + 2 := by rw [length_swap, hlen]
  have h21 : k + 2 - 1 = k + 1 := by omega
  have ht : (swap a 0 (k + 1)).take (k + 1) = (swap a 0 (k + 1)).dropLast := by
    rw [List.dropLast_eq_take, hsl, h21]
  have hd : (swap a 0 (k + 1)).drop (k + 1) = [get a 0] := by
    rw [drop_pred_of_length _ hsl, get_swap_right a (by omega)]
  rw [ht, hd]

/-- The `into_sorted_vec` loop never touches the already-sorted suffix. -/
theorem intoSortedLoop_append :
    ∀ (k : Nat) (c d : List α), k < c.length →
      intoSortedLoop (c ++ d) k = intoSortedLoop c k ++ d := by
  intro k
  induction k with
  | zero =>
    intro c d _
    rw [intoSortedLoop, intoSortedLoop]
  | succ k ih =>
    intro c d hk
    rw [intoSortedLoop, intoSortedLoop]
    rw [swap_append c d (by omega) hk,
      List.take_append_of_le_length (by rw [length_swap]; omega),
      List.drop_append_of_le_length (by rw [length_swap]; omega),
      ← List.append_assoc]
    refine ih _ d ?_
    simp only [List.length_append, length_heapify, List.length_take,
      List.length_drop, length_swap]
    omega

theorem popAll_nil (cap : Nat) : popAll (⟨cap, []⟩ : BinaryHeap α) = [] :=
  popAll_eq_nil ((pop_eq_none_iff _).mpr rfl)

theorem pop_cons (cap : Nat) (a : List α) (hne : a ≠ []) :
    pop ⟨cap, a⟩ = some (get a 0,
      ⟨cap, heapify ((swap a 0 (a.length - 1)).dropLast) 0⟩) := by
  rw [pop, if_neg (by simpa [List.isEmpty_iff] using hne)]
  rfl

theorem popAll_singleton (cap : Nat) (x : α) :
    popAll (⟨cap, [x]⟩ : BinaryHeap α) = [x] := by
  have hp : pop (⟨cap, [x]⟩ : BinaryHeap α) = some (x, ⟨cap, []⟩) := by
    rw [pop_cons cap [x] (by simp)]
    simp [get, swap, heapify_nil]
  rw [popAll_eq_cons hp, popAll_nil]

/-- The in-place heapsort is the reverse of the `pop`-until-empty
sequence. -/
theorem intoSortedLoop_reverse :
    ∀ (n cap : Nat) (a : List α), a.length = n →
      intoSortedLoop a (a.length - 1) = (popAll ⟨cap, a⟩).reverse := by
  intro n
  induction n using Nat.strong_induction_on with
  | _ n ih =>
    intro cap a hlen
    rcases n with _ | n
    · rw [List.length_eq_zero.mp hlen]
      simp [intoSortedLoop, popAll_nil]
    · rcases n with _ | k
      · obtain ⟨x, rfl⟩ := List.length_eq_one.mp hlen
        simp [intoSortedLoop, popAll_singleton]
      · have hne : a ≠ [] := by
          intro he
          rw [he] at hlen
          simp at hlen
        have hl1 : a.length - 1 = k + 1 := by omega
        rw [hl1, intoSortedLoop, intoSorted_body_eq a hlen]
        have hblen : (heapify ((swap a 0 (a.length - 1)).dropLast) 0).length
            = k + 1 := by
          rw [length_heapify, List.length_dropLast, length_swap]
          omega
        rw [intoSortedLoop_append k _ [get a 0] (by omega)]
        have hih := ih (k + 1) (by omega) cap
          (heapify ((swap a 0 (a.length - 1)).dropLast) 0) hblen
        rw [hblen] at hih
        have hbk : k + 1 - 1 = k := by omega
        rw [hbk] at hih
        rw [hih]
        have hpa : popAll ⟨cap, a⟩ = get a 0 ::
            popAll ⟨cap, heapify ((swap a 0 (a.length - 1)).dropLast) 0⟩ :=
          popAll_eq_cons (pop_cons cap a hne)
        rw [hpa, List.reverse_cons]

/-- `into_sorted_vec` is the reverse of repeated `pop`. -/
theorem intoSortedVec_eq_reverse_popAll (h : BinaryHeap α) :
    intoSortedVec h = (popAll h).reverse := by
  rw [intoSortedVec]
  exact intoSortedLoop_reverse h.a.length h.cap h.a rfl

/-- `into_sorted_vec` on a valid heap: an ascending permutation of the
contents. -/
theorem intoSortedVec_sorted_perm (h : BinaryHeap α) (hh : IsHeap h.a) :
    (intoSortedVec h).Sorted (· ≤ ·) ∧ (intoSortedVec h).Perm h.a := by
  obtain ⟨hs, hp⟩ := popAll_correct h hh
  rw [intoSortedVec_eq_reverse_popAll]
  constructor
  · rw [List.Sorted]
    exact List.pairwise_reverse.mpr hs
  · exact (List.reverse_perm _).trans hp

/-- `DrainSorted.seq` satisfies the iterator recursion: it is what repeated
`next` calls yield. -/
theorem drainSorted_seq_next (it : DrainSorted α) :
    it.seq = match it.next with
      | none => []
      | some (v, it2) => v :: it2.seq := by
  rw [DrainSorted.next]
  rcases hm : pop it.heap with _ | ⟨v, h2⟩
  · exact popAll_eq_nil hm
  · exact popAll_eq_cons hm

theorem intoIterSorted_seq_next (it : IntoIterSorted α) :
    it.seq = match it.next with
      | none => []
      | some (v, it2) => v :: it2.seq := by
  rw [IntoIterSorted.next]
  rcases hm : pop it.heap with _ | ⟨v, h2⟩
  · exact popAll_eq_nil hm
  · exact popAll_eq_cons hm

/-- Whatever prefix is consumed by hand, the consumed elements followed by
the elements destroyed by the `Drop` impl (repeated `pop`) form the full
`pop`-until-empty sequence. -/
theorem takePops_append (h : BinaryHeap α) :
    ∀ k, (takePops h k).1 ++ popAll ((takePops h k).2) = popAll h := by
  suffices hgen : ∀ k (g : BinaryHeap α),
      (takePops g k).1 ++ popAll ((takePops g k).2) = popAll g from
    fun k => hgen k h
  intro k
  induction k with
  | zero => intro g; rw [takePops]; rfl
  | succ k ih =>
    intro g
    rw [takePops]
    rcases hm : pop g with _ | ⟨v, h2⟩
    · rfl
    · rw [popAll_eq_cons hm]
      exact congrArg (v :: ·) (ih h2)

theorem parentChecked_pos {i : Nat} (h0 : 0 < i) :
    parentChecked i = some (parent i) := by
  rw [parentChecked, if_pos (by omega)]
  rfl

/-- The checked sift-up loop never hits an underflow or an out-of-bounds
read when started at an occupied index, and agrees with the unchecked
loop. -/
theorem siftUpChecked_eq :
    ∀ (i : Nat) (a : List α), i < a.length →
      siftUpChecked a i = some (siftUp a i) := by
  intro i
  induction i using Nat.strong_induction_on with
  | _ i ih =>
    intro a hi
    by_cases h0 : 0 < i
    · have hpl : parent i < i := parent_lt h0
      have hplen : parent i < a.length := by omega
      rw [siftUpChecked, if_pos h0]
      split
      · next heq =>
        rw [parentChecked_pos h0] at heq
        exact absurd heq (by simp)
      · next p heq =>
        rw [parentChecked_pos h0] at heq
        have hpe : p = parent i := (Option.some.inj heq).symm
        subst hpe
        split
        · next x y heq1 heq2 =>
          have hx : x = get a (parent i) := by
            rw [List.getElem?_eq_getElem hplen] at heq1
            rw [get_eq_getElem a hplen]
            exact (Option.some.inj heq1).symm
          have hy : y = get a i := by
            rw [List.getElem?_eq_getElem hi] at heq2
            rw [get_eq_getElem a hi]
            exact (Option.some.inj heq2).symm
          subst hx
          subst hy
          by_cases hlt : get a (parent i) < get a i
          · rw [if_pos hlt, siftUp, if_pos ⟨h0, hlt⟩]
            exact ih (parent i) hpl _ (by rwa [length_swap])
          · rw [if_neg hlt, siftUp, if_neg (fun hc => hlt hc.2)]
        · next hno =>
          exfalso
          exact hno (a.get ⟨parent i, hplen⟩) (a.get ⟨i, hi⟩)
            (List.getElem?_eq_getElem hplen) (List.getElem?_eq_getElem hi)
    · rw [siftUpChecked, if_neg h0, siftUp,
        if_neg (fun hc => h0 hc.1)]

theorem isHeap_nil : IsHeap ([] : List α) := by
  intro j hj _
  simp at hj

/-- `try_push`-ing a whole sequence into a heap with room: the invariant is
kept and the contents are the old contents plus the sequence. -/
theorem pushAll_spec :
    ∀ (l : List α) (h : BinaryHeap α), IsHeap h.a →
      h.a.length + l.length ≤ h.cap →
      IsHeap (pushAll h l).a ∧ (pushAll h l).a.Perm (h.a ++ l) ∧
        (pushAll h l).cap = h.cap := by
  intro l
  induction l with
  | nil =>
    intro h hh _
    exact ⟨hh, by simp [pushAll], rfl⟩
  | cons x l ih =>
    intro h hh hfit
    have hlt : h.a.length < h.cap := by
      simp only [List.length_cons] at hfit
      omega
    obtain ⟨hok, hperm, hcap⟩ := tryPush_success_perm h x hlt
    have hh1 : IsHeap ((tryPush h x).2).a := tryPush_isHeap h x hh
    have hlen1 : ((tryPush h x).2).a.length = h.a.length + 1 := by
      rw [hperm.length_eq]
      simp
    have hstep : pushAll h (x :: l) = pushAll ((tryPush h x).2) l := by
      rw [pushAll, pushAll, List.foldl_cons]
    obtain ⟨hih, hip, hic⟩ := ih ((tryPush h x).2) hh1 (by
      rw [hlen1, hcap]
      simp only [List.length_cons] at hfit
      omega)
    rw [hstep]
    refine ⟨hih, ?_, by rw [hic, hcap]⟩
    exact hip.trans ((hperm.append_right l).trans List.perm_middle.symm)

/-- C1: after every public mutating operation returns (`try_push`, `push`,
`pop`, the `From<Vec>` build-heap, `extend`), every occupied index `i > 0`
satisfies `element[parent(i)] >= element[i]`. -/
theorem claim_C1 (h : BinaryHeap α) (x v : α) (h2 : BinaryHeap α)
    (l a : List α) (cap : Nat) (hh : IsHeap h.a) :
    IsHeap ((tryPush h x).2).a ∧
    (push h x = some h2 → IsHeap h2.a) ∧
    (pop h = some (v, h2) → IsHeap h2.a) ∧
    IsHeap (fromVec cap a).a ∧
    IsHeap (extendHeap h l).a := by
  refine ⟨tryPush_isHeap h x hh, ?_, ?_, fromVec_isHeap cap a,
    extendHeap_isHeap h l⟩
  · intro hp
    rw [push] at hp
    split at hp
    · next u h2x heq =>
      have he2 : h2x = h2 := Option.some.inj hp
      have hsnd : (tryPush h x).2 = h2x := congrArg Prod.snd heq
      rw [← he2, ← hsnd]
      exact tryPush_isHeap h x hh
    · exact absurd hp (by simp)
  · intro hp
    exact pop_isHeap hh hp

theorem claim_C1_witness :
    IsHeap ((tryPush (⟨3, [5, 3, 1]⟩ : BinaryHeap Int) 4).2).a :=
  (claim_C1 ⟨3, [5, 3, 1]⟩ 4 0 ⟨0, []⟩ [2] [1, 2] 3 (by decide)).1

/-- C2: `pop` returns `None` iff the heap is empty; on a valid non-empty
heap it returns an element dominating everything that remains, removes
exactly that element (multiset-wise), and shrinks the length by one. -/
theorem claim_C2 (h : BinaryHeap α) (hh : IsHeap h.a) :
    (pop h = none ↔ h.a = []) ∧
    (∀ v h2, pop h = some (v, h2) →
      (∀ x ∈ h2.a, x ≤ v) ∧ (v :: h2.a).Perm h.a ∧
        h2.a.length + 1 = h.a.length) := by
  refine ⟨pop_eq_none_iff h, ?_⟩
  intro v h2 hp
  exact ⟨pop_max hh hp, pop_perm hp, pop_length hp⟩

theorem claim_C2_witness :
    pop (⟨3, [5, 3, 1]⟩ : BinaryHeap Int) = none ↔
      ([5, 3, 1] : List Int) = [] :=
  (claim_C2 ⟨3, [5, 3, 1]⟩ (by decide)).1

/-- C3: `into_sorted_vec` on a valid heap returns an ascending permutation
of the heap's contents: same length, same multiset, non-decreasing order. -/
theorem claim_C3 (h : BinaryHeap α) (hh : IsHeap h.a) :
    (intoSortedVec h).Sorted (· ≤ ·) ∧ (intoSortedVec h).Perm h.a ∧
      (intoSortedVec h).length = h.a.length := by
  obtain ⟨hs, hp⟩ := intoSortedVec_sorted_perm h hh
  exact ⟨hs, hp, hp.length_eq⟩

theorem claim_C3_witness :
    (intoSortedVec (⟨5, [5, 4, 3, 1, 2]⟩ : BinaryHeap Int)).Sorted (· ≤ ·) :=
  (claim_C3 ⟨5, [5, 4, 3, 1, 2]⟩ (by decide)).1

/-- C4: `try_push` on a full heap returns `Err` carrying exactly the
original item and leaves the heap (length and every element) unchanged. -/
theorem claim_C4 (h : BinaryHeap α) (x : α) (hfull : h.a.length = h.cap) :
    (tryPush h x).1 = Except.error x ∧ (tryPush h x).2 = h ∧
      ((tryPush h x).2).a.length = h.a.length ∧
      (∀ j, get ((tryPush h x).2).a j = get h.a j) := by
  rw [tryPush_full h x hfull]
  exact ⟨rfl, rfl, rfl, fun j => rfl⟩

theorem claim_C4_witness :
    (tryPush (⟨3, [5, 3, 1]⟩ : BinaryHeap Int) 9).1 = Except.error 9 :=
  (claim_C4 ⟨3, [5, 3, 1]⟩ 9 (by decide)).1

/-- C5: building a heap from a vector (the O(n) `From<Vec>` build-heap) and
sorting it yields the same ascending sequence as `try_push`-ing the
elements one at a time into an empty heap of the same capacity and sorting
that. -/
theorem claim_C5 (cap : Nat) (l : List α) (hfit : l.length ≤ cap) :
    intoSortedVec (fromVec cap l) = intoSortedVec (pushAll ⟨cap, []⟩ l) := by
  obtain ⟨hh1, hp1⟩ := intoSortedVec_sorted_perm (fromVec cap l)
    (fromVec_isHeap cap l)
  obtain ⟨hhp, hpp, _⟩ := pushAll_spec l ⟨cap, []⟩ isHeap_nil
    (by simpa using hfit)
  obtain ⟨hh2, hp2⟩ := intoSortedVec_sorted_perm (pushAll ⟨cap, []⟩ l) hhp
  refine List.eq_of_perm_of_sorted ?_ hh1 hh2
  exact (hp1.trans (fromVec_perm cap l)).trans
    ((hp2.trans (hpp.trans (by simp))).symm)

theorem claim_C5_witness :
    intoSortedVec (fromVec 5 ([1, 5, 3, 2, 4] : List Int))
      = intoSortedVec (pushAll ⟨5, []⟩ ([1, 5, 3, 2, 4] : List Int)) :=
  claim_C5 5 [1, 5, 3, 2, 4] (by decide)

/-- C6 counterexample: with duplicate elements the sequence yielded by a
sorted extraction iterator is *not* strictly descending.  The heap state
`⟨2, [5, 5]⟩` is reachable (two successful `try_push`es of `5` into an
empty capacity-2 heap), and repeated `pop` yields `[5, 5]`. -/
theorem claim_C6_counterexample :
    (pushAll (⟨2, []⟩ : BinaryHeap Int) [5, 5]).a = [5, 5] ∧
    popAll (⟨2, [5, 5]⟩ : BinaryHeap Int) = [5, 5] ∧
    ¬ (popAll (⟨2, [5, 5]⟩ : BinaryHeap Int)).Sorted (· > ·) := by
  have e1 : tryPush (⟨2, []⟩ : BinaryHeap Int) 5 = (Except.ok (), ⟨2, [5]⟩) := by
    simp +decide [tryPush, vecTryPush, siftUp, get, parent]
  have e2 : tryPush (⟨2, [5]⟩ : BinaryHeap Int) 5
      = (Except.ok (), ⟨2, [5, 5]⟩) := by
    simp +decide [tryPush, vecTryPush, siftUp, get, parent]
  have he : popAll (⟨2, [5, 5]⟩ : BinaryHeap Int) = [5, 5] := by
    simp +decide [popAll, popAllFuel, pop, vecSwapRemoveFront, heapify,
      heapTarget, heapCand, swap, get]
  refine ⟨?_, he, ?_⟩
  · rw [pushAll, List.foldl_cons, e1]
    show (pushAll (⟨2, [5]⟩ : BinaryHeap Int) [5]).a = [5, 5]
    rw [pushAll, List.foldl_cons, e2]
    rfl
  · rw [he]
    decide

/-- C6 (amended): each `next()` of `DrainSorted` and `IntoIterSorted` is
exactly one `pop()`, and on a valid heap the full yielded sequence is
descending with ties allowed (non-increasing; strictly descending only up
to duplicate elements). -/
theorem claim_C6 (it : DrainSorted α) (jt : IntoIterSorted α)
    (h1 : IsHeap it.heap.a) (h2 : IsHeap jt.heap.a) :
    it.next = Option.map (fun p => (p.1, DrainSorted.mk p.2)) (pop it.heap) ∧
    jt.next = Option.map (fun p => (p.1, IntoIterSorted.mk p.2))
      (pop jt.heap) ∧
    it.seq.Sorted (· ≥ ·) ∧ jt.seq.Sorted (· ≥ ·) := by
  refine ⟨?_, ?_, (popAll_correct it.heap h1).1, (popAll_correct jt.heap h2).1⟩
  · rw [DrainSorted.next]
    rcases pop it.heap with _ | ⟨v, g⟩ <;> rfl
  · rw [IntoIterSorted.next]
    rcases pop jt.heap with _ | ⟨v, g⟩ <;> rfl

theorem claim_C6_witness :
    (DrainSorted.seq ⟨(⟨3, [5, 3, 1]⟩ : BinaryHeap Int)⟩).Sorted (· ≥ ·) :=
  (claim_C6 ⟨⟨3, [5, 3, 1]⟩⟩ ⟨⟨3, [5, 3, 1]⟩⟩ (by decide) (by decide)).2.2.1

/-- C7: consuming `k` elements by hand from a sorted extraction iterator
and then letting its destructor pop the rest produces, in total, exactly
the full `pop`-until-empty sequence — a descending permutation of the
heap's original contents, for every `k`. -/
theorem claim_C7 (h : BinaryHeap α) (k : Nat) (hh : IsHeap h.a) :
    (takePops h k).1 ++ popAll ((takePops h k).2) = popAll h ∧
    (popAll h).Sorted (· ≥ ·) ∧ (popAll h).Perm h.a :=
  ⟨takePops_append h k, (popAll_correct h hh).1, (popAll_correct h hh).2⟩

theorem claim_C7_witness :
    (takePops (⟨3, [5, 3, 1]⟩ : BinaryHeap Int) 2).1 ++
        popAll ((takePops (⟨3, [5, 3, 1]⟩ : BinaryHeap Int) 2).2)
      = popAll (⟨3, [5, 3, 1]⟩ : BinaryHeap Int) :=
  (claim_C7 ⟨3, [5, 3, 1]⟩ 2 (by decide)).1

/-- C8: writing an arbitrary value through the `PeekMut` guard and then
releasing it (its `Drop` runs sift-down from the root) restores the
max-heap invariant, whether the root's key grew, shrank or stayed. -/
theorem claim_C8 (h : BinaryHeap α) (v : α) (hne : h.a ≠ [])
    (hh : IsHeap h.a) : IsHeap (peekMutDrop (peekMutWrite h v)).a := by
  show IsHeap (heapify (h.a.set 0 v) 0)
  have hyp : ∀ j, j < (h.a.set 0 v).length → inSubtree 0 j = true → j ≠ 0 →
      parent j ≠ 0 → get (h.a.set 0 v) j ≤ get (h.a.set 0 v) (parent j) := by
    intro j hj _ hne0 hpne0
    rw [List.length_set] at hj
    rw [get_set_ne _ hne0, get_set_ne _ hpne0]
    exact hh j hj (Nat.pos_of_ne_zero hne0)
  intro j hj h0
  rw [length_heapify, List.length_set] at hj
  exact heapify_correct _ 0 hyp j (by rwa [List.length_set])
    (inSubtree_zero j) (by omega)

theorem claim_C8_witness :
    IsHeap (peekMutDrop (peekMutWrite (⟨3, [5, 3, 1]⟩ : BinaryHeap Int) 0)).a :=
  claim_C8 ⟨3, [5, 3, 1]⟩ 0 (by decide) (by decide)

/-- C9: the sift-down swap target is computed left-first — the left child
becomes the candidate only if strictly greater than the element at `i`, the
right child overrides only if strictly greater than the current candidate
(so on a left/right tie the left child wins) — and `heapify` swaps with the
target and recurses into its subtree, terminating exactly when no child is
strictly greater (or no children exist). -/
theorem claim_C9 (a : List α) (i : Nat) :
    (heapTarget a i = i ↔
      ((left i < a.length → get a (left i) ≤ get a i) ∧
       (right i < a.length → get a (right i) ≤ get a i))) ∧
    (heapTarget a i = i → heapify a i = a) ∧
    (left i < a.length → get a i < get a (left i) →
      ¬ (right i < a.length ∧ get a (left i) < get a (right i)) →
      heapTarget a i = left i) ∧
    (right i < a.length → get a i < get a (right i) →
      (left i < a.length → get a (left i) < get a (right i)) →
      heapTarget a i = right i) ∧
    (left i < a.length → right i < a.length → get a i < get a (left i) →
      get a (right i) = get a (left i) → heapTarget a i = left i) ∧
    (heapTarget a i ≠ i →
      i < heapTarget a i ∧ heapTarget a i < a.length ∧
      get a i < get a (heapTarget a i) ∧
      heapify a i = heapify (swap a i (heapTarget a i)) (heapTarget a i)) := by
  refine ⟨⟨fun ht => ⟨(heapTarget_eq_self ht).1, (heapTarget_eq_self ht).2⟩,
    ?_⟩, ?_, ?_, ?_, ?_, ?_⟩
  · rintro ⟨hl, hr⟩
    have hcand : heapCand a i = i := by
      rw [heapCand, if_neg]
      rintro ⟨hllen, hlval⟩
      exact absurd (hl hllen) (not_le.mpr hlval)
    rw [heapTarget, hcand, if_neg]
    rintro ⟨hrlen, hrval⟩
    exact absurd (hr hrlen) (not_le.mpr hrval)
  · intro ht
    rw [heapify, if_pos ht]
  · intro hllen hlval hno
    have hcand : heapCand a i = left i := by
      rw [heapCand, if_pos ⟨hllen, hlval⟩]
    rw [heapTarget, hcand, if_neg hno]
  · intro hrlen hrval hlr
    by_cases hc : left i < a.length ∧ get a i < get a (left i)
    · have hcand : heapCand a i = left i := by rw [heapCand, if_pos hc]
      rw [heapTarget, hcand, if_pos ⟨hrlen, hlr hc.1⟩]
    · have hcand : heapCand a i = i := by rw [heapCand, if_neg hc]
      rw [heapTarget, hcand, if_pos ⟨hrlen, hrval⟩]
  · intro hllen hrlen hlval heq
    have hcand : heapCand a i = left i := by
      rw [heapCand, if_pos ⟨hllen, hlval⟩]
    rw [heapTarget, hcand, if_neg]
    rintro ⟨_, hgt⟩
    rw [heq] at hgt
    exact absurd hgt (lt_irrefl _)
  · intro hne
    obtain ⟨_, h1, h2, h3, _⟩ := heapTarget_ne hne
    exact ⟨h1, h2, h3, by rw [heapify, if_neg hne]⟩

theorem claim_C9_witness :
    heapTarget ([3, 5, 1] : List Int) 0 = left 0 :=
  (claim_C9 ([3, 5, 1] : List Int) 0).2.2.1 (by decide) (by decide) (by decide)

/-- C10: in the `try_push` sift-up loop, `parent` is only evaluated behind
the `i > 0` guard, where the `usize` subtraction in `(i + 1) / 2 - 1` cannot
underflow and both indices read are in bounds: the fully checked loop never
fails and agrees with the unchecked one, in particular at the start index
`len - 1` used by `try_push` after a successful append. -/
theorem claim_C10 (h : BinaryHeap α) (x : α) (a : List α) (i : Nat)
    (hfit : h.a.length < h.cap) (hi : i < a.length) :
    (∀ k, 0 < k → parentChecked k = some (parent k) ∧ parent k < k) ∧
    siftUpChecked a i = some (siftUp a i) ∧
    siftUpChecked (h.a ++ [x]) ((h.a ++ [x]).length - 1)
      = some (siftUp (h.a ++ [x]) ((h.a ++ [x]).length - 1)) := by
  refine ⟨fun k hk => ⟨parentChecked_pos hk, parent_lt hk⟩,
    siftUpChecked_eq i a hi, ?_⟩
  refine siftUpChecked_eq _ _ ?_
  simp

theorem claim_C10_witness :
    siftUpChecked ([3, 5, 1] : List Int) 2
      = some (siftUp ([3, 5, 1] : List Int) 2) :=
  (claim_C10 (⟨3, [5, 3]⟩ : BinaryHeap Int) 1 [3, 5, 1] 2
    (by decide) (by decide)).2.1

end Coca
